import Mathlib

/-!
Verification of the identity-resolution core of the Skeleton Frame Editor
(`frame_editor.py`).

The program keeps three pieces of session state: `id_to_name` (BodyID to
PersonName, a Python dict), `name_to_neck` (PersonName to the last neck
reference point, a Python dict), and `uninterested` (a Python set of
BodyIDs).  Each frame view reapplies existing mappings, then greedily
suggests for the remaining rows the closest previously seen name that is
not yet used in this frame; manual edits are persisted back into the
state; the export replays `id_to_name` against the whole table.

Python dicts are embedded as association lists with in-place update (an
existing key keeps its position, a new key is appended), which reproduces
Python's insertion-ordered iteration; sets are lists with membership-based
insertion.  Machine floats only occur as neck coordinates, which the code
rounds to (nullable) integers on load, so distances are compared through
exact squared integer distances (`math.dist` is the monotone square root
of this quantity); a missing coordinate (`pd.NA`) is `none`, and
`math.dist` raising `TypeError` on it is modelled as a failure outcome.
-/

/-- Lookup in a Python-dict-like association list: first binding wins. -/
def dlookup {κ α : Type} [DecidableEq κ] : List (κ × α) → κ → Option α
  | [], _ => none
  | (k₀, v₀) :: rest, k => if k₀ = k then some v₀ else dlookup rest k

/-- Python dict assignment `m[k] = v`: update in place if the key exists,
otherwise append the new binding at the end. -/
def dinsert {κ α : Type} [DecidableEq κ] : List (κ × α) → κ → α → List (κ × α)
  | [], k, v => [(k, v)]
  | (k₀, v₀) :: rest, k, v =>
    if k₀ = k then (k, v) :: rest else (k₀, v₀) :: dinsert rest k v

/-- Python dict `m.pop(k, None)`: remove the binding for `k` if present. -/
def dpop {κ α : Type} [DecidableEq κ] : List (κ × α) → κ → List (κ × α)
  | [], _ => []
  | (k₀, v₀) :: rest, k =>
    if k₀ = k then dpop rest k else (k₀, v₀) :: dpop rest k

/-- Python set `s.add(x)`. -/
def sadd {α : Type} [DecidableEq α] (s : List α) (x : α) : List α :=
  if x ∈ s then s else s ++ [x]

/-- Python set `s.discard(x)`. -/
def sdiscard {α : Type} [DecidableEq α] : List α → α → List α
  | [], _ => []
  | y :: rest, x => if y = x then sdiscard rest x else y :: sdiscard rest x

/-- A neck reference point after loading: each coordinate is an integer or
the missing-value marker `pd.NA` (modelled as `none`). -/
abbrev OptPt := Option Int × Option Int × Option Int

/-- One pose record as the suggestion / export logic sees it: its frame
index, its BodyID and its `_neck` triple (`NECK_X`, `NECK_Y`, `NECK_Z`). -/
structure Row where
  frame : Int
  bid : Int
  neck : OptPt
deriving DecidableEq, Repr

/-- The session's IdentityLedger: `st.session_state.id_to_name`,
`st.session_state.name_to_neck` and `st.session_state.uninterested`. -/
structure Ledger where
  id_to_name : List (Int × String)
  name_to_neck : List (String × OptPt)
  uninterested : List Int
deriving DecidableEq, Repr

/-- The empty ledger created at session initialization. -/
def emptyLedger : Ledger := ⟨[], [], []⟩

/-- Squared Euclidean distance between two neck triples.  `math.dist`
returns its monotone square root; it raises `TypeError` (here `none`) as
soon as one of the six coordinates is the missing-value marker. -/
def dist2 : OptPt → OptPt → Option Int
  | (some x₁, some y₁, some z₁), (some x₂, some y₂, some z₂) =>
    some ((x₁ - x₂) * (x₁ - x₂) + (y₁ - y₂) * (y₁ - y₂) + (z₁ - z₂) * (z₁ - z₂))
  | _, _ => none

/-- The inner loop of the suggestion pass: scan `name_to_neck` in dict
order, skip names already `used`, keep the strictly closest candidate
(first encountered wins ties).  `Except.error` models the uncaught
`TypeError` raised by `math.dist` when a coordinate is missing. -/
def bestCandidate (neck : OptPt) :
    List (String × OptPt) → List String → Option (String × Int) →
    Except Unit (Option String)
  | [], _, best => .ok (best.map Prod.fst)
  | (name, prev) :: rest, used, best =>
    if name ∈ used then bestCandidate neck rest used best
    else
      match dist2 neck prev with
      | none => .error ()
      | some d =>
        match best with
        | none => bestCandidate neck rest used (some (name, d))
        | some (bn, bd) =>
          if d < bd then bestCandidate neck rest used (some (name, d))
          else bestCandidate neck rest used (some (bn, bd))

/-- Result of the second suggestion loop: the two dict components of the
session state, the `used` set, the presented `(BodyID, PersonName)` rows,
and whether the loop ran to completion (`false` = the `math.dist`
`TypeError` aborted the script run before the rows were shown). -/
structure Pass2Out where
  id2n : List (Int × String)
  n2p : List (String × OptPt)
  used : List String
  pres : List (Int × String)
  ok : Bool
deriving DecidableEq, Repr

/-- Second loop of the frame view (`for i, row in sub.iterrows()` at line
92): each row that pass 1 left unlabeled and whose BodyID is not
`uninterested` receives the best unused candidate, which is written into
`id_to_name`, `name_to_neck` and `used`. -/
def pass2 (unint : List Int) :
    List (Row × String) → List (Int × String) → List (String × OptPt) →
    List String → Pass2Out
  | [], id2n, n2p, used => ⟨id2n, n2p, used, [], true⟩
  | (r, pn) :: rest, id2n, n2p, used =>
    if pn = "" ∧ r.bid ∉ unint then
      match bestCandidate r.neck n2p used none with
      | .error _ => ⟨id2n, n2p, used, [], false⟩
      | .ok none =>
        let out := pass2 unint rest id2n n2p used
        ⟨out.id2n, out.n2p, out.used, (r.bid, pn) :: out.pres, out.ok⟩
      | .ok (some best) =>
        if best = "" then
          let out := pass2 unint rest id2n n2p used
          ⟨out.id2n, out.n2p, out.used, (r.bid, pn) :: out.pres, out.ok⟩
        else
          let out := pass2 unint rest (dinsert id2n r.bid best)
            (dinsert n2p best r.neck) (sadd used best)
          ⟨out.id2n, out.n2p, out.used, (r.bid, best) :: out.pres, out.ok⟩
    else
      let out := pass2 unint rest id2n n2p used
      ⟨out.id2n, out.n2p, out.used, (r.bid, pn) :: out.pres, out.ok⟩

/-- The PersonName pass 1 writes for one row: the ledger mapping if
present, else the empty string (`id_to_name.get(bid, "")`). -/
def pass1Name (l : Ledger) (r : Row) : String :=
  (dlookup l.id_to_name r.bid).getD ""

/-- The `used` set after the first loop (line 82): every non-empty
reapplied name, in order of first appearance. -/
def pass1Used (l : Ledger) (rows : List Row) : List String :=
  rows.foldl (fun u r => if pass1Name l r = "" then u else sadd u (pass1Name l r)) []

/-- One frame view (`suggestForFrame`): reapply existing mappings, then
run the greedy suggestion loop.  Returns the new ledger, the presented
`(BodyID, PersonName)` rows and the completion flag. -/
def suggestForFrame (l : Ledger) (rows : List Row) :
    Ledger × List (Int × String) × Bool :=
  let out := pass2 l.uninterested (rows.zip (rows.map (pass1Name l)))
    l.id_to_name l.name_to_neck (pass1Used l rows)
  (⟨out.id2n, out.n2p, l.uninterested⟩, out.pres, out.ok)

/-- The `_neck` of the first row of the current frame with the given
BodyID (`sub.loc[sub['BodyID'] == bid, '_neck'].iloc[0]`); `none` models
the `IndexError` raised when no such row exists. -/
def subNeck : List Row → Int → Option OptPt
  | [], _ => none
  | r :: rest, bid => if r.bid = bid then some r.neck else subNeck rest bid

/-- The persist-edits loop (`reconcile`, line 121): a non-empty name is
written into `id_to_name` and `name_to_neck` and discards the BodyID from
`uninterested`; an empty name pops the BodyID from `id_to_name` and adds
it to `uninterested`.  The `Bool` is `false` when the neck lookup fails,
which in Python raises after `id_to_name` was already updated. -/
def reconcile (sub : List Row) : Ledger → List (Int × String) → Ledger × Bool
  | l, [] => (l, true)
  | l, (bid, name) :: rest =>
    if name = "" then
      reconcile sub ⟨dpop l.id_to_name bid, l.name_to_neck,
        sadd l.uninterested bid⟩ rest
    else
      match subNeck sub bid with
      | none => (⟨dinsert l.id_to_name bid name, l.name_to_neck, l.uninterested⟩, false)
      | some nk =>
        reconcile sub ⟨dinsert l.id_to_name bid name,
          dinsert l.name_to_neck name nk, sdiscard l.uninterested bid⟩ rest

/-- A core operation of one annotation session: viewing a frame (which
runs the suggestion engine) or persisting the edited rows of a frame. -/
inductive Op where
  | suggest (rows : List Row)
  | reconcile (sub : List Row) (edits : List (Int × String))

/-- Apply one operation to the ledger, reporting completion. -/
def applyOp (l : Ledger) : Op → Ledger × Bool
  | .suggest rows => ((suggestForFrame l rows).1, (suggestForFrame l rows).2.2)
  | .reconcile sub edits => reconcile sub l edits

/-- Apply a sequence of operations, stopping at the first aborted one. -/
def applyOps (l : Ledger) : List Op → Ledger × Bool
  | [] => (l, true)
  | op :: rest =>
    match applyOp l op with
    | (l', true) => applyOps l' rest
    | (l', false) => (l', false)

/-- The emitted export row for one record, if any: the record keeps all
its original columns and gains a final `PersonName` column (the pair's
second component); an unnamed record yields nothing. -/
def emit (l : Ledger) (r : Row) : Option (Row × String) :=
  if (dlookup l.id_to_name r.bid).getD "" = "" then none
  else some (r, (dlookup l.id_to_name r.bid).getD "")

/-- Insert a frame index into a strictly sorted list of frame indices,
keeping it sorted and duplicate-free (models `sorted(df['Frame'].unique())`). -/
def insertFrame (x : Int) : List Int → List Int
  | [] => [x]
  | y :: rest =>
    if x < y then x :: y :: rest
    else if x = y then y :: rest
    else y :: insertFrame x rest

/-- The distinct frame indices of the table in ascending order. -/
def sortedFrames (df : List Row) : List Int :=
  (df.map (fun r => r.frame)).foldr insertFrame []

/-- The export's outer loop: for each frame index in the given order,
emit the named records of that frame in original table order. -/
def exportFrames (df : List Row) (l : Ledger) : List Int → List (Row × String)
  | [] => []
  | f :: rest =>
    ((df.filter (fun r => decide (r.frame = f))).filterMap (emit l))
      ++ exportFrames df l rest

/-- The flat list `rows_out` built by the Export Edited CSV block. -/
def exportRows (df : List Row) (l : Ledger) : List (Row × String) :=
  exportFrames df l (sortedFrames df)

/-- The whole export: building `pd.DataFrame(rows_out)[cols]` raises
(`EmptyExportError` in the spec's taxonomy) exactly when `rows_out` is
empty, i.e. when no record in the dataset currently has a name. -/
def exportAll (df : List Row) (l : Ledger) : Except Unit (List (Row × String)) :=
  if exportRows df l = [] then .error () else .ok (exportRows df l)

/-- Round half to even, the rule applied by `Series.round()` (numpy). -/
def roundHalfEven (q : ℚ) : ℤ :=
  if q - ⌊q⌋ < 1 / 2 then ⌊q⌋
  else if 1 / 2 < q - ⌊q⌋ then ⌊q⌋ + 1
  else if ⌊q⌋ % 2 = 0 then ⌊q⌋ else ⌊q⌋ + 1

/-- Is this a coordinate-like column (`col.endswith(("_X", "_Y", "_Z"))`),
checked on the column name's character sequence? -/
def isCoordCol (c : String) : Bool :=
  List.isSuffixOf "_X".data c.data || List.isSuffixOf "_Y".data c.data
    || List.isSuffixOf "_Z".data c.data

/-- A loaded table, column-wise: each column is its name together with
its cells, a cell being a number or the missing-value marker `none`. -/
abbrev Table := List (String × List (Option ℚ))

/-- The `remove_decimals` helper: every coordinate-like column is rounded
cell-wise to integer units (`.round().astype("Int64")`), keeping the
missing-value marker; other columns are untouched. -/
def remove_decimals (t : Table) : Table :=
  t.map (fun c =>
    if isCoordCol c.1 then
      (c.1, c.2.map (Option.map (fun q => (roundHalfEven q : ℚ))))
    else c)

/-- No two distinct BodyIDs in a presented row list carry the same
non-empty PersonName. -/
def noDupNames (ps : List (Int × String)) : Prop :=
  ∀ p ∈ ps, ∀ q ∈ ps, p.1 ≠ q.1 → p.2 ≠ "" → p.2 ≠ q.2

/-- Every edit handed to this operation carries a PersonName that is
empty or drawn from the catalog (what the editor's selectbox enforces). -/
def opEditsOk (catalog : List String) : Op → Prop
  | .suggest _ => True
  | .reconcile _ edits => ∀ e ∈ edits, e.2 = "" ∨ e.2 ∈ catalog


/-- The last edit of the list that touches BodyID `b`, if any. -/
def lastEdit : List (Int × String) → Int → Option String
  | [], _ => none
  | e :: rest, b =>
    match lastEdit rest b with
    | some n => some n
    | none => if e.1 = b then some e.2 else none

/-- The BodyID of the last edit assigning the non-empty name `m`, if any. -/
def lastAssign : List (Int × String) → String → Option Int
  | [], _ => none
  | e :: rest, m =>
    match lastAssign rest m with
    | some b => some b
    | none => if e.2 = m ∧ e.2 ≠ "" then some e.1 else none

/-- The frame of the C1 counterexample session in which BodyID 7 is
manually labeled Alice. -/
def C1sub : List Row := [⟨1, 7, (some 0, some 0, some 0)⟩]

/-- The frame of the C1 counterexample session in which BodyID 9 gets
Alice by suggestion (BodyID 7 is absent, so Alice is unused there). -/
def C1rows2 : List Row := [⟨2, 9, (some 1, some 0, some 0)⟩]

/-- A later frame containing both BodyID 7 and BodyID 9. -/
def C1rows3 : List Row := [⟨3, 7, (some 0, some 0, some 0)⟩, ⟨3, 9, (some 1, some 0, some 0)⟩]

/-- The ledger reached from the empty session by labeling BodyID 7 as
Alice in frame 1 and viewing frame 2: it maps both 7 and 9 to Alice. -/
def C1ledger : Ledger :=
  (applyOps emptyLedger [Op.reconcile C1sub [(7, "Alice")], Op.suggest C1rows2]).1

/-- Witness data: reconciling frame 1 with Alice on BodyID 7 and an empty
name on a BodyID absent from the frame. -/
def C3edits : List (Int × String) := [(7, "Alice"), (9, "")]

/-- The ledger produced by the C3 witness edits from the empty session. -/
def C3ledger : Ledger := ⟨[(7, "Alice")], [("Alice", (some 0, some 0, some 0))], [9]⟩

/-- A session state holding one known name, used for the C6 evaluation. -/
def C6ledger : Ledger := ⟨[], [("Alice", (some 0, some 0, some 0))], []⟩

/-- A frame whose single record has a missing NECK_X coordinate. -/
def C6rows : List Row := [⟨4, 5, (none, some 1, some 2)⟩]

/-! Basic lemmas about the Python dict / set embedding. -/

theorem dlookup_dinsert {κ α : Type} [DecidableEq κ] (m : List (κ × α)) (k k' : κ) (v : α) :
    dlookup (dinsert m k v) k' = if k = k' then some v else dlookup m k' := by
  induction m with
  | nil =>
    by_cases h : k = k' <;> simp [dinsert, dlookup, h]
  | cons hd tl ih =>
    obtain ⟨k₀, v₀⟩ := hd
    by_cases h₀ : k₀ = k
    · subst h₀
      by_cases h₁ : k₀ = k'
      · subst h₁; simp [dinsert, dlookup]
      · simp [dinsert, dlookup, h₁]
    · have h₀' : k ≠ k₀ := fun h => h₀ h.symm
      by_cases h₁ : k₀ = k'
      · subst h₁
        simp [dinsert, dlookup, h₀, h₀']
      · simp [dinsert, dlookup, h₀, h₁, ih]

theorem dlookup_dpop {κ α : Type} [DecidableEq κ] (m : List (κ × α)) (k k' : κ) :
    dlookup (dpop m k) k' = if k = k' then none else dlookup m k' := by
  induction m with
  | nil =>
    by_cases h : k = k' <;> simp [dpop, dlookup, h]
  | cons hd tl ih =>
    obtain ⟨k₀, v₀⟩ := hd
    by_cases h₀ : k₀ = k
    · subst h₀
      by_cases h₁ : k₀ = k'
      · subst h₁; simp [dpop, dlookup, ih]
      · simp [dpop, dlookup, h₁, ih]
    · have h₀' : k ≠ k₀ := fun h => h₀ h.symm
      by_cases h₁ : k₀ = k'
      · subst h₁
        simp [dpop, dlookup, h₀, h₀']
      · simp [dpop, dlookup, h₀, h₁, ih]

theorem mem_dinsert {κ α : Type} [DecidableEq κ] (m : List (κ × α)) (k : κ) (v : α)
    (p : κ × α) (hp : p ∈ dinsert m k v) : p = (k, v) ∨ p ∈ m := by
  induction m with
  | nil => simpa [dinsert] using hp
  | cons hd tl ih =>
    obtain ⟨k₀, v₀⟩ := hd
    by_cases h₀ : k₀ = k
    · subst h₀
      simp [dinsert] at hp
      rcases hp with h | h
      · exact Or.inl h
      · exact Or.inr (List.mem_cons_of_mem _ h)
    · simp only [dinsert, if_neg h₀] at hp
      simp only [List.mem_cons] at hp
      rcases hp with h | h
      · exact Or.inr (List.mem_cons.mpr (Or.inl h))
      · rcases ih h with h' | h'
        · exact Or.inl h'
        · exact Or.inr (List.mem_cons_of_mem _ h')

theorem dlookup_mem {κ α : Type} [DecidableEq κ] (m : List (κ × α)) (k : κ) (v : α)
    (h : dlookup m k = some v) : (k, v) ∈ m := by
  induction m with
  | nil => simp [dlookup] at h
  | cons hd tl ih =>
    obtain ⟨k₀, v₀⟩ := hd
    by_cases h₀ : k₀ = k
    · subst h₀
      simp [dlookup] at h
      subst h; exact List.mem_cons_self _ _
    · simp only [dlookup, if_neg h₀] at h
      exact List.mem_cons_of_mem _ (ih h)

theorem mem_sadd {α : Type} [DecidableEq α] (s : List α) (x y : α) :
    y ∈ sadd s x ↔ y ∈ s ∨ y = x := by
  unfold sadd
  by_cases h : x ∈ s
  · simp only [if_pos h]
    constructor
    · exact Or.inl
    · rintro (h' | rfl)
      · exact h'
      · exact h
  · simp [if_neg h, List.mem_append]

theorem mem_sdiscard {α : Type} [DecidableEq α] (s : List α) (x y : α) :
    y ∈ sdiscard s x ↔ y ∈ s ∧ y ≠ x := by
  induction s with
  | nil => simp [sdiscard]
  | cons hd tl ih =>
    by_cases h₀ : hd = x
    · rw [show sdiscard (hd :: tl) x = sdiscard tl x by simp [sdiscard, h₀], ih]
      subst h₀
      simp only [List.mem_cons]
      constructor
      · rintro ⟨h₁, h₂⟩; exact ⟨Or.inr h₁, h₂⟩
      · rintro ⟨h₁ | h₁, h₂⟩
        · exact absurd h₁ h₂
        · exact ⟨h₁, h₂⟩
    · rw [show sdiscard (hd :: tl) x = hd :: sdiscard tl x by simp [sdiscard, h₀]]
      simp only [List.mem_cons, ih]
      constructor
      · rintro (rfl | ⟨h₁, h₂⟩)
        · exact ⟨Or.inl rfl, h₀⟩
        · exact ⟨Or.inr h₁, h₂⟩
      · rintro ⟨rfl | h₁, h₂⟩
        · exact Or.inl rfl
        · exact Or.inr ⟨h₁, h₂⟩

/-! Lemmas about the suggestion loop. -/

theorem bestCandidate_prop (P : String → Prop) (neck : OptPt) :
    ∀ (cands : List (String × OptPt)) (used : List String)
      (b0 : Option (String × Int)) (x : String),
    (∀ c ∈ cands, c.1 ∉ used → P c.1) → (∀ y d, b0 = some (y, d) → P y) →
    bestCandidate neck cands used b0 = .ok (some x) → P x := by
  intro cands
  induction cands with
  | nil =>
    intro used b0 x _ hb0 h
    simp only [bestCandidate] at h
    cases b0 with
    | none => simp at h
    | some p =>
      obtain ⟨y, d⟩ := p
      simp at h
      exact h ▸ hb0 y d rfl
  | cons hd tl ih =>
    obtain ⟨name, prev⟩ := hd
    intro used b0 x hc hb0 h
    simp only [bestCandidate] at h
    by_cases hu : name ∈ used
    · rw [if_pos hu] at h
      exact ih used b0 x (fun c hc' => hc c (List.mem_cons_of_mem _ hc')) hb0 h
    · rw [if_neg hu] at h
      cases hd2 : dist2 neck prev with
      | none => rw [hd2] at h; simp at h
      | some d =>
        rw [hd2] at h
        dsimp only at h
        cases b0 with
        | none =>
          refine ih used _ x (fun c hc' => hc c (List.mem_cons_of_mem _ hc')) ?_ h
          rintro y dd ⟨⟩
          exact hc (name, prev) (List.mem_cons_self _ _) hu
        | some p =>
          obtain ⟨bn, bd⟩ := p
          dsimp only at h
          by_cases hlt : d < bd
          · rw [if_pos hlt] at h
            refine ih used _ x (fun c hc' => hc c (List.mem_cons_of_mem _ hc')) ?_ h
            rintro y dd ⟨⟩
            exact hc (name, prev) (List.mem_cons_self _ _) hu
          · rw [if_neg hlt] at h
            refine ih used _ x (fun c hc' => hc c (List.mem_cons_of_mem _ hc')) ?_ h
            rintro y dd ⟨⟩
            exact hb0 bn bd rfl

/-- A best candidate chosen with an initially empty accumulator is a key
of `name_to_neck` and is not yet `used`. -/
theorem bestCandidate_ok (neck : OptPt) (cands : List (String × OptPt))
    (used : List String) (x : String)
    (h : bestCandidate neck cands used none = .ok (some x)) :
    (∃ c ∈ cands, c.1 = x) ∧ x ∉ used := by
  constructor
  · exact bestCandidate_prop (fun y => ∃ c ∈ cands, c.1 = y) neck cands used none x
      (fun c hc _ => ⟨c, hc, rfl⟩) (by rintro y d ⟨⟩) h
  · exact bestCandidate_prop (fun y => y ∉ used) neck cands used none x
      (fun c _ hc => hc) (by rintro y d ⟨⟩) h

/-- The suggestion loop never rewrites an entry of `id_to_name` whose
BodyID is presented with a non-empty PersonName by pass 1. -/
theorem pass2_id_preserved (unint : List Int) (b : Int) (n : String) :
    ∀ (rows : List (Row × String)) (id2n : List (Int × String))
      (n2p : List (String × OptPt)) (used : List String),
    dlookup id2n b = some n →
    (∀ p ∈ rows, p.1.bid = b → p.2 ≠ "") →
    dlookup (pass2 unint rows id2n n2p used).id2n b = some n := by
  intro rows
  induction rows with
  | nil => intro id2n n2p used h _; simpa [pass2] using h
  | cons hd rest ih =>
    obtain ⟨r, pn⟩ := hd
    intro id2n n2p used h hrows
    have hrest : ∀ p ∈ rest, p.1.bid = b → p.2 ≠ "" :=
      fun p hp => hrows p (List.mem_cons_of_mem _ hp)
    simp only [pass2]
    by_cases hc : pn = "" ∧ r.bid ∉ unint
    · rw [if_pos hc]
      cases hbc : bestCandidate r.neck n2p used none with
      | error u => exact h
      | ok ob =>
        cases ob with
        | none => exact ih id2n n2p used h hrest
        | some best =>
          dsimp only
          by_cases hbe : best = ""
          · rw [if_pos hbe]
            exact ih id2n n2p used h hrest
          · rw [if_neg hbe]
            dsimp only
            refine ih _ _ _ ?_ hrest
            rw [dlookup_dinsert]
            have hne : r.bid ≠ b := by
              intro hrb
              exact hrows (r, pn) (List.mem_cons_self _ _) hrb hc.1
            rw [if_neg hne]
            exact h
    · rw [if_neg hc]
      exact ih id2n n2p used h hrest

/-- Rows whose BodyID is presented by pass 1 with the fixed non-empty
name `n` keep exactly that name in the presented output. -/
theorem pass2_pres_mapped (unint : List Int) (b : Int) (n : String) (hn : n ≠ "") :
    ∀ (rows : List (Row × String)) (id2n : List (Int × String))
      (n2p : List (String × OptPt)) (used : List String),
    (∀ p ∈ rows, p.1.bid = b → p.2 = n) →
    ∀ q ∈ (pass2 unint rows id2n n2p used).pres, q.1 = b → q.2 = n := by
  intro rows
  induction rows with
  | nil => intro id2n n2p used _ q hq; simp [pass2] at hq
  | cons hd rest ih =>
    obtain ⟨r, pn⟩ := hd
    intro id2n n2p used hrows q hq hqb
    have hrest : ∀ p ∈ rest, p.1.bid = b → p.2 = n :=
      fun p hp => hrows p (List.mem_cons_of_mem _ hp)
    simp only [pass2] at hq
    by_cases hc : pn = "" ∧ r.bid ∉ unint
    · rw [if_pos hc] at hq
      cases hbc : bestCandidate r.neck n2p used none with
      | error u => rw [hbc] at hq; simp at hq
      | ok ob =>
        cases ob with
        | none =>
          rw [hbc] at hq
          rcases List.mem_cons.mp hq with rfl | hq'
          · exact hrows (r, pn) (List.mem_cons_self _ _) hqb
          · exact ih id2n n2p used hrest q hq' hqb
        | some best =>
          rw [hbc] at hq
          dsimp only at hq
          by_cases hbe : best = ""
          · rw [if_pos hbe] at hq
            rcases List.mem_cons.mp hq with rfl | hq'
            · exact hrows (r, pn) (List.mem_cons_self _ _) hqb
            · exact ih id2n n2p used hrest q hq' hqb
          · rw [if_neg hbe] at hq
            rcases List.mem_cons.mp hq with rfl | hq'
            · exact absurd (hrows (r, pn) (List.mem_cons_self _ _) hqb) (hc.1 ▸ fun h => hn h.symm)
            · exact ih _ _ _ hrest q hq' hqb
    · rw [if_neg hc] at hq
      rcases List.mem_cons.mp hq with rfl | hq'
      · exact hrows (r, pn) (List.mem_cons_self _ _) hqb
      · exact ih id2n n2p used hrest q hq' hqb

/-- A presented name that was in `used` when pass 2 started can only come
from a pass-1 presented pair, never from a fresh suggestion. -/
theorem pass2_used_name (unint : List Int) (x : String) :
    ∀ (rows : List (Row × String)) (id2n : List (Int × String))
      (n2p : List (String × OptPt)) (used : List String),
    x ∈ used →
    ∀ q ∈ (pass2 unint rows id2n n2p used).pres, q.2 = x →
    ∃ p ∈ rows, p.1.bid = q.1 ∧ p.2 = x := by
  intro rows
  induction rows with
  | nil => intro id2n n2p used _ q hq; simp [pass2] at hq
  | cons hd rest ih =>
    obtain ⟨r, pn⟩ := hd
    intro id2n n2p used hx q hq hqx
    simp only [pass2] at hq
    by_cases hc : pn = "" ∧ r.bid ∉ unint
    · rw [if_pos hc] at hq
      cases hbc : bestCandidate r.neck n2p used none with
      | error u => rw [hbc] at hq; simp at hq
      | ok ob =>
        cases ob with
        | none =>
          rw [hbc] at hq
          rcases List.mem_cons.mp hq with rfl | hq'
          · exact ⟨(r, pn), List.mem_cons_self _ _, rfl, hqx⟩
          · obtain ⟨p, hp, hpb, hpx⟩ := ih id2n n2p used hx q hq' hqx
            exact ⟨p, List.mem_cons_of_mem _ hp, hpb, hpx⟩
        | some best =>
          rw [hbc] at hq
          dsimp only at hq
          by_cases hbe : best = ""
          · rw [if_pos hbe] at hq
            rcases List.mem_cons.mp hq with rfl | hq'
            · exact ⟨(r, pn), List.mem_cons_self _ _, rfl, hqx⟩
            · obtain ⟨p, hp, hpb, hpx⟩ := ih id2n n2p used hx q hq' hqx
              exact ⟨p, List.mem_cons_of_mem _ hp, hpb, hpx⟩
          · rw [if_neg hbe] at hq
            rcases List.mem_cons.mp hq with rfl | hq'
            · have hbx : best = x := hqx
              exact absurd (hbx ▸ hx) (bestCandidate_ok _ _ _ _ hbc).2
            · obtain ⟨p, hp, hpb, hpx⟩ := ih _ _ _ ((mem_sadd used best x).mpr (Or.inl hx)) q hq' hqx
              exact ⟨p, List.mem_cons_of_mem _ hp, hpb, hpx⟩
    · rw [if_neg hc] at hq
      rcases List.mem_cons.mp hq with rfl | hq'
      · exact ⟨(r, pn), List.mem_cons_self _ _, rfl, hqx⟩
      · obtain ⟨p, hp, hpb, hpx⟩ := ih id2n n2p used hx q hq' hqx
        exact ⟨p, List.mem_cons_of_mem _ hp, hpb, hpx⟩

/-- If every pending pass-1 non-empty name is in `used` and the pending
pass-1 pairs have no name collision of their own, then the rows presented
by pass 2 have no name collision: a fresh suggestion is never a name that
is `used`, and `used` absorbs every assigned name. -/
theorem pass2_noDup (unint : List Int) :
    ∀ (rows : List (Row × String)) (id2n : List (Int × String))
      (n2p : List (String × OptPt)) (used : List String),
    (∀ p ∈ rows, p.2 ≠ "" → p.2 ∈ used) →
    (∀ p ∈ rows, ∀ q ∈ rows, p.1.bid ≠ q.1.bid → p.2 ≠ "" → p.2 ≠ q.2) →
    noDupNames (pass2 unint rows id2n n2p used).pres := by
  intro rows
  induction rows with
  | nil => intro id2n n2p used _ _ p hp; simp [pass2] at hp
  | cons hd rest ih =>
    obtain ⟨r, pn⟩ := hd
    intro id2n n2p used hused hpair
    have husedr : ∀ p ∈ rest, p.2 ≠ "" → p.2 ∈ used :=
      fun p hp => hused p (List.mem_cons_of_mem _ hp)
    have hpairr : ∀ p ∈ rest, ∀ q ∈ rest, p.1.bid ≠ q.1.bid → p.2 ≠ "" → p.2 ≠ q.2 :=
      fun p hp q hq => hpair p (List.mem_cons_of_mem _ hp) q (List.mem_cons_of_mem _ hq)
    have headCase :
        ∀ (prest : List (Int × String)),
        (∀ q ∈ prest, q.2 ≠ "" → q.2 = pn → ∃ p ∈ rest, p.1.bid = q.1 ∧ p.2 = pn) →
        noDupNames prest →
        noDupNames ((r.bid, pn) :: prest) := by
      intro prest htrace hnd p hp q hq hne hpne
      rcases List.mem_cons.mp hp with rfl | hp' <;> rcases List.mem_cons.mp hq with rfl | hq'
      · exact absurd rfl hne
      · -- p is the head, q in the tail
        intro heq
        obtain ⟨p', hp', hpb', hpx'⟩ := htrace q hq' (by rw [← heq]; exact hpne) (by rw [← heq])
        exact hpair (r, pn) (List.mem_cons_self _ _) p' (List.mem_cons_of_mem _ hp')
          (by simpa [hpb'] using hne) hpne (hpx'.symm)
      · -- q is the head, p in the tail
        intro heq
        have heq' : p.2 = pn := heq
        have hpn : pn ≠ "" := fun h => hpne (heq'.trans h)
        obtain ⟨p', hp', hpb', hpx'⟩ := htrace p hp' hpne (by rw [heq])
        exact hpair (r, pn) (List.mem_cons_self _ _) p' (List.mem_cons_of_mem _ hp')
          (by simpa [hpb'] using hne.symm) hpn (hpx'.symm)
      · exact hnd p hp' q hq' hne hpne
    simp only [pass2]
    by_cases hc : pn = "" ∧ r.bid ∉ unint
    · rw [if_pos hc]
      cases hbc : bestCandidate r.neck n2p used none with
      | error u => intro p hp; simp at hp
      | ok ob =>
        cases ob with
        | none =>
          refine headCase _ ?_ (ih id2n n2p used husedr hpairr)
          intro q hq hqne hqpn
          exact absurd (hqpn.trans hc.1) hqne
        | some best =>
          dsimp only
          by_cases hbe : best = ""
          · rw [if_pos hbe]
            refine headCase _ ?_ (ih id2n n2p used husedr hpairr)
            intro q hq hqne hqpn
            exact absurd (hqpn.trans hc.1) hqne
          · rw [if_neg hbe]
            have hbu : best ∉ used := (bestCandidate_ok _ _ _ _ hbc).2
            have husedr' : ∀ p ∈ rest, p.2 ≠ "" → p.2 ∈ sadd used best :=
              fun p hp hpne => (mem_sadd used best p.2).mpr (Or.inl (husedr p hp hpne))
            intro p hp q hq hne hpne
            rcases List.mem_cons.mp hp with rfl | hp' <;> rcases List.mem_cons.mp hq with rfl | hq'
            · exact absurd rfl hne
            · -- head (fresh best) vs tail
              intro heq
              obtain ⟨p', hp', hpb', hpx'⟩ := pass2_used_name unint best rest _ _ _
                ((mem_sadd used best best).mpr (Or.inr rfl)) q hq' heq.symm
              exact hbu (hpx' ▸ husedr p' hp' (by rw [hpx']; exact hbe))
            · -- tail vs head (fresh best)
              intro heq
              obtain ⟨p', hp', hpb', hpx'⟩ := pass2_used_name unint best rest _ _ _
                ((mem_sadd used best best).mpr (Or.inr rfl)) p hp' heq
              exact hbu (hpx' ▸ husedr p' hp' (by rw [hpx']; exact hbe))
            · exact ih _ _ _ husedr' hpairr p hp' q hq' hne hpne
    · rw [if_neg hc]
      refine headCase _ ?_ (ih id2n n2p used husedr hpairr)
      intro q hq hqne hqpn
      exact pass2_used_name unint pn rest id2n n2p used
        (hused (r, pn) (List.mem_cons_self _ _) (by rw [← hqpn]; exact hqne)) q hq hqpn

/-- Pass 2 writes `id_to_name` only at BodyIDs that are not in
`uninterested`, so it preserves the disjointness invariant. -/
theorem pass2_disj (unint : List Int) :
    ∀ (rows : List (Row × String)) (id2n : List (Int × String))
      (n2p : List (String × OptPt)) (used : List String),
    (∀ b n, dlookup id2n b = some n → b ∉ unint) →
    ∀ b n, dlookup (pass2 unint rows id2n n2p used).id2n b = some n → b ∉ unint := by
  intro rows
  induction rows with
  | nil => intro id2n n2p used hinv b n h; exact hinv b n h
  | cons hd rest ih =>
    obtain ⟨r, pn⟩ := hd
    intro id2n n2p used hinv b n h
    simp only [pass2] at h
    by_cases hc : pn = "" ∧ r.bid ∉ unint
    · rw [if_pos hc] at h
      cases hbc : bestCandidate r.neck n2p used none with
      | error u => rw [hbc] at h; exact hinv b n h
      | ok ob =>
        cases ob with
        | none => rw [hbc] at h; exact ih id2n n2p used hinv b n h
        | some best =>
          rw [hbc] at h
          dsimp only at h
          by_cases hbe : best = ""
          · rw [if_pos hbe] at h
            exact ih id2n n2p used hinv b n h
          · rw [if_neg hbe] at h
            refine ih _ _ _ ?_ b n h
            intro b' n' h'
            rw [dlookup_dinsert] at h'
            by_cases hb' : r.bid = b'
            · exact hb' ▸ hc.2
            · rw [if_neg hb'] at h'
              exact hinv b' n' h'
    · rw [if_neg hc] at h
      exact ih id2n n2p used hinv b n h

/-- Pass 2 only writes into `id_to_name` values that are keys of
`name_to_neck`, and only writes into `name_to_neck` at existing keys: it
preserves membership of all names in any superset `cat` of both. -/
theorem pass2_cat (cat : List String) (unint : List Int) :
    ∀ (rows : List (Row × String)) (id2n : List (Int × String))
      (n2p : List (String × OptPt)) (used : List String),
    (∀ p ∈ id2n, p.2 ∈ cat) → (∀ q ∈ n2p, q.1 ∈ cat) →
    (∀ p ∈ (pass2 unint rows id2n n2p used).id2n, p.2 ∈ cat) ∧
      (∀ q ∈ (pass2 unint rows id2n n2p used).n2p, q.1 ∈ cat) := by
  intro rows
  induction rows with
  | nil => intro id2n n2p used h₁ h₂; exact ⟨h₁, h₂⟩
  | cons hd rest ih =>
    obtain ⟨r, pn⟩ := hd
    intro id2n n2p used h₁ h₂
    simp only [pass2]
    by_cases hc : pn = "" ∧ r.bid ∉ unint
    · rw [if_pos hc]
      cases hbc : bestCandidate r.neck n2p used none with
      | error u => exact ⟨h₁, h₂⟩
      | ok ob =>
        cases ob with
        | none => exact ih id2n n2p used h₁ h₂
        | some best =>
          dsimp only
          by_cases hbe : best = ""
          · rw [if_pos hbe]
            exact ih id2n n2p used h₁ h₂
          · rw [if_neg hbe]
            have hbcat : best ∈ cat := by
              obtain ⟨⟨c, hc', hcx⟩, _⟩ := bestCandidate_ok _ _ _ _ hbc
              exact hcx ▸ h₂ c hc'
            refine ih _ _ _ ?_ ?_
            · intro p hp
              rcases mem_dinsert _ _ _ p hp with rfl | hp'
              · exact hbcat
              · exact h₁ p hp'
            · intro q hq
              rcases mem_dinsert _ _ _ q hq with rfl | hq'
              · exact hbcat
              · exact h₂ q hq'
    · rw [if_neg hc]
      exact ih id2n n2p used h₁ h₂

/-- A pair of the zip of rows with their pass-1 names is a row together
with its pass-1 name. -/
theorem mem_zip_pass1 (l : Ledger) :
    ∀ (rows : List Row) (p : Row × String),
    p ∈ rows.zip (rows.map (pass1Name l)) → p.1 ∈ rows ∧ p.2 = pass1Name l p.1 := by
  intro rows
  induction rows with
  | nil => intro p hp; simp at hp
  | cons hd rest ih =>
    intro p hp
    simp only [List.map_cons, List.zip_cons_cons, List.mem_cons] at hp
    rcases hp with rfl | hp'
    · exact ⟨List.mem_cons_self _ _, rfl⟩
    · obtain ⟨h₁, h₂⟩ := ih p hp'
      exact ⟨List.mem_cons_of_mem _ h₁, h₂⟩

/-- Monotonicity of the `used` accumulator of pass 1. -/
theorem pass1Used_mono (l : Ledger) :
    ∀ (rows : List Row) (u : List String) (x : String), x ∈ u →
    x ∈ rows.foldl (fun u r => if pass1Name l r = "" then u else sadd u (pass1Name l r)) u := by
  intro rows
  induction rows with
  | nil => intro u x hx; exact hx
  | cons hd rest ih =>
    intro u x hx
    simp only [List.foldl_cons]
    by_cases h : pass1Name l hd = ""
    · rw [if_pos h]; exact ih u x hx
    · rw [if_neg h]
      exact ih _ x ((mem_sadd u _ x).mpr (Or.inl hx))

/-- Every non-empty pass-1 name of a frame row ends up in `used`. -/
theorem mem_pass1Used (l : Ledger) :
    ∀ (rows : List Row) (r : Row), r ∈ rows → pass1Name l r ≠ "" →
    pass1Name l r ∈ pass1Used l rows := by
  have main : ∀ (rows : List Row) (u : List String) (r : Row), r ∈ rows →
      pass1Name l r ≠ "" →
      pass1Name l r ∈ rows.foldl
        (fun u r => if pass1Name l r = "" then u else sadd u (pass1Name l r)) u := by
    intro rows
    induction rows with
    | nil => intro u r hr; simp at hr
    | cons hd rest ih =>
      intro u r hr hne
      rcases List.mem_cons.mp hr with rfl | hr'
      · simp only [List.foldl_cons, if_neg hne]
        exact pass1Used_mono l rest _ _ ((mem_sadd u _ _).mpr (Or.inr rfl))
      · simp only [List.foldl_cons]
        by_cases h : pass1Name l hd = ""
        · rw [if_pos h]; exact ih u r hr' hne
        · rw [if_neg h]; exact ih _ r hr' hne
  exact fun rows => main rows []

/-- An `id_to_name.get(bid, "")` that is non-empty pins down the lookup. -/
theorem getD_ne_empty (o : Option String) (h : o.getD "" ≠ "") : o = some (o.getD "") := by
  cases o with
  | none => simp at h
  | some v => rfl

/-- C2: a BodyID that already has a (non-empty) ledger mapping keeps
exactly that mapping across a frame view, and every presented row of that
BodyID shows the mapped name: the Suggestion Engine never overrides an
existing assignment. -/
theorem C2_precedence (l : Ledger) (rows : List Row) (b : Int) (n : String)
    (h : dlookup l.id_to_name b = some n) (hn : n ≠ "") :
    dlookup (suggestForFrame l rows).1.id_to_name b = some n ∧
      ∀ q ∈ (suggestForFrame l rows).2.1, q.1 = b → q.2 = n := by
  constructor
  · show dlookup (pass2 l.uninterested (rows.zip (rows.map (pass1Name l)))
      l.id_to_name l.name_to_neck (pass1Used l rows)).id2n b = some n
    refine pass2_id_preserved l.uninterested b n _ l.id_to_name l.name_to_neck
      (pass1Used l rows) h ?_
    intro p hp hpb
    obtain ⟨_, h₂⟩ := mem_zip_pass1 l rows p hp
    rw [h₂, pass1Name, hpb, h]
    simpa using hn
  · show ∀ q ∈ (pass2 l.uninterested (rows.zip (rows.map (pass1Name l)))
      l.id_to_name l.name_to_neck (pass1Used l rows)).pres, q.1 = b → q.2 = n
    refine pass2_pres_mapped l.uninterested b n hn _ l.id_to_name l.name_to_neck
      (pass1Used l rows) ?_
    intro p hp hpb
    obtain ⟨_, h₂⟩ := mem_zip_pass1 l rows p hp
    rw [h₂, pass1Name, hpb, h]
    rfl

/-- C1 (amended): after a frame view no two distinct BodyIDs carry the
same non-empty PersonName, provided no two of the frame's BodyIDs were
already mapped to one and the same non-empty name in `id_to_name`
(suggestion itself never duplicates a name; only the reapplication of a
many-to-one ledger can). -/
theorem C1_no_intra_frame_collision (l : Ledger) (rows : List Row)
    (hinj : ∀ r₁ ∈ rows, ∀ r₂ ∈ rows, ∀ n : String, n ≠ "" →
      dlookup l.id_to_name r₁.bid = some n → dlookup l.id_to_name r₂.bid = some n →
      r₁.bid = r₂.bid) :
    noDupNames (suggestForFrame l rows).2.1 := by
  show noDupNames (pass2 l.uninterested (rows.zip (rows.map (pass1Name l)))
    l.id_to_name l.name_to_neck (pass1Used l rows)).pres
  refine pass2_noDup l.uninterested _ l.id_to_name l.name_to_neck (pass1Used l rows) ?_ ?_
  · intro p hp hne
    obtain ⟨h₁, h₂⟩ := mem_zip_pass1 l rows p hp
    rw [h₂]
    rw [h₂] at hne
    exact mem_pass1Used l rows p.1 h₁ hne
  · intro p hp q hq hne hpne heq
    obtain ⟨hp₁, hp₂⟩ := mem_zip_pass1 l rows p hp
    obtain ⟨hq₁, hq₂⟩ := mem_zip_pass1 l rows q hq
    have hp' : pass1Name l p.1 ≠ "" := by rw [← hp₂]; exact hpne
    have hq' : pass1Name l q.1 ≠ "" := by rw [← hq₂, ← heq]; exact hpne
    have hlp : dlookup l.id_to_name p.1.bid = some p.2 := by
      rw [hp₂]
      exact getD_ne_empty _ hp'
    have hlq : dlookup l.id_to_name q.1.bid = some p.2 := by
      rw [heq, hq₂]
      exact getD_ne_empty _ hq'
    exact hne (hinj p.1 hp₁ q.1 hq₁ p.2 hpne hlp hlq)

/-- C1 as stated is false: in the frame containing BodyIDs 7 and 9, both
reachable-ledger mappings are reapplied, and the two distinct BodyIDs are
presented with the same non-empty PersonName Alice. -/
theorem C1_counterexample : ¬ noDupNames (suggestForFrame C1ledger C1rows3).2.1 := by
  intro h
  have hpres : (suggestForFrame C1ledger C1rows3).2.1 = [(7, "Alice"), (9, "Alice")] := by
    decide
  rw [hpres] at h
  exact h (7, "Alice") (by simp) (9, "Alice") (by simp) (by decide) (by decide) rfl

/-- Witness for C1 (amended) at a concrete injectively-mapped ledger. -/
theorem C1_witness :
    noDupNames (suggestForFrame ⟨[(7, "Alice")], [("Alice", (some 0, some 0, some 0))], []⟩
      C1rows3).2.1 := by
  refine C1_no_intra_frame_collision _ _ ?_
  intro r₁ h₁ r₂ h₂ n hn hl₁ hl₂
  fin_cases h₁ <;> fin_cases h₂ <;> simp_all [dlookup, C1rows3]

/-- Witness for C2 at a concrete ledger mapping BodyID 7 to Alice. -/
theorem C2_witness :
    dlookup (suggestForFrame (⟨[(7, "Alice")], [("Alice", (some 0, some 0, some 0))], []⟩ : Ledger)
      C1rows3).1.id_to_name 7 = some "Alice" :=
  (C2_precedence ⟨[(7, "Alice")], [("Alice", (some 0, some 0, some 0))], []⟩
    C1rows3 7 "Alice" (by decide) (by decide)).1

/-- C10: a frame view never touches the `uninterested` set; the
suggestion loops read it but only `reconcile` writes it. -/
theorem C10_suggest_preserves_uninterested (l : Ledger) (rows : List Row) :
    (suggestForFrame l rows).1.uninterested = l.uninterested := rfl

/-! Characterization of `reconcile` on success. -/

/-- Whether the persist loop completes does not depend on the ledger. -/
theorem reconcile_ok_indep (sub : List Row) :
    ∀ (edits : List (Int × String)) (l l' : Ledger),
    (reconcile sub l edits).2 = (reconcile sub l' edits).2 := by
  intro edits
  induction edits with
  | nil => intro l l'; rfl
  | cons e rest ih =>
    obtain ⟨bid, name⟩ := e
    intro l l'
    simp only [reconcile]
    by_cases hn : name = ""
    · rw [if_pos hn, if_pos hn]
      exact ih _ _
    · rw [if_neg hn, if_neg hn]
      cases subNeck sub bid with
      | none => rfl
      | some nk => exact ih _ _

/-- On success, the final `id_to_name` lookup is the last edit touching
that BodyID, or the initial binding if no edit touches it. -/
theorem reconcile_lookup_id (sub : List Row) :
    ∀ (edits : List (Int × String)) (l l' : Ledger),
    reconcile sub l edits = (l', true) →
    ∀ b, dlookup l'.id_to_name b =
      match lastEdit edits b with
      | none => dlookup l.id_to_name b
      | some n => if n = "" then none else some n := by
  intro edits
  induction edits with
  | nil =>
    intro l l' h b
    simp only [reconcile, Prod.mk.injEq] at h
    rw [← h.1]
    rfl
  | cons e rest ih =>
    obtain ⟨bid, name⟩ := e
    intro l l' h b
    simp only [reconcile] at h
    by_cases hn : name = ""
    · rw [if_pos hn] at h
      have := ih _ _ h b
      rw [this]
      subst hn
      simp only [lastEdit]
      cases lastEdit rest b with
      | some n => rfl
      | none =>
        dsimp only
        rw [dlookup_dpop]
        by_cases hb : bid = b
        · simp [hb]
        · simp [hb]
    · rw [if_neg hn] at h
      cases hsn : subNeck sub bid with
      | none => rw [hsn] at h; simp at h
      | some nk =>
        rw [hsn] at h
        have := ih _ _ h b
        rw [this]
        simp only [lastEdit]
        cases lastEdit rest b with
        | some n => rfl
        | none =>
          dsimp only
          rw [dlookup_dinsert]
          by_cases hb : bid = b
          · simp [hb, hn]
          · simp [hb]

/-- On success, membership in the final `uninterested` set is decided by
the last edit touching that BodyID (empty name = member), or the initial
membership if no edit touches it. -/
theorem reconcile_mem_unint (sub : List Row) :
    ∀ (edits : List (Int × String)) (l l' : Ledger),
    reconcile sub l edits = (l', true) →
    ∀ b, (b ∈ l'.uninterested ↔
      match lastEdit edits b with
      | none => b ∈ l.uninterested
      | some n => n = "") := by
  intro edits
  induction edits with
  | nil =>
    intro l l' h b
    simp only [reconcile, Prod.mk.injEq] at h
    rw [← h.1]
    rfl
  | cons e rest ih =>
    obtain ⟨bid, name⟩ := e
    intro l l' h b
    simp only [reconcile] at h
    by_cases hn : name = ""
    · rw [if_pos hn] at h
      have := ih _ _ h b
      rw [this]
      subst hn
      simp only [lastEdit]
      cases lastEdit rest b with
      | some n => rfl
      | none =>
        dsimp only
        rw [mem_sadd]
        by_cases hb : bid = b
        · simp [hb]
        · have hb' : ¬ b = bid := fun hh => hb hh.symm
          simp [hb, hb']
    · rw [if_neg hn] at h
      cases hsn : subNeck sub bid with
      | none => rw [hsn] at h; simp at h
      | some nk =>
        rw [hsn] at h
        have := ih _ _ h b
        rw [this]
        simp only [lastEdit]
        cases lastEdit rest b with
        | some n => rfl
        | none =>
          dsimp only
          rw [mem_sdiscard]
          by_cases hb : bid = b
          · simp [hb, hn]
          · have hb' : ¬ b = bid := fun hh => hb hh.symm
            simp [hb, hb']

/-- On success, the final `name_to_neck` lookup of a name is the neck of
the BodyID of the last edit assigning it, or the initial binding. -/
theorem reconcile_lookup_n2p (sub : List Row) :
    ∀ (edits : List (Int × String)) (l l' : Ledger),
    reconcile sub l edits = (l', true) →
    ∀ m, dlookup l'.name_to_neck m =
      match lastAssign edits m with
      | none => dlookup l.name_to_neck m
      | some b => subNeck sub b := by
  intro edits
  induction edits with
  | nil =>
    intro l l' h m
    simp only [reconcile, Prod.mk.injEq] at h
    rw [← h.1]
    rfl
  | cons e rest ih =>
    obtain ⟨bid, name⟩ := e
    intro l l' h m
    simp only [reconcile] at h
    by_cases hn : name = ""
    · rw [if_pos hn] at h
      have := ih _ _ h m
      rw [this]
      subst hn
      simp only [lastAssign]
      cases lastAssign rest m with
      | some b => rfl
      | none => simp
    · rw [if_neg hn] at h
      cases hsn : subNeck sub bid with
      | none => rw [hsn] at h; simp at h
      | some nk =>
        rw [hsn] at h
        have := ih _ _ h m
        rw [this]
        simp only [lastAssign]
        cases lastAssign rest m with
        | some b => rfl
        | none =>
          dsimp only
          rw [dlookup_dinsert]
          by_cases hm : name = m
          · subst hm
            simp [hn, hsn.symm]
          · simp [hm, hn]

/-- Elements surviving a dict pop were in the dict. -/
theorem mem_dpop {κ α : Type} [DecidableEq κ] (m : List (κ × α)) (k : κ)
    (p : κ × α) (hp : p ∈ dpop m k) : p ∈ m := by
  induction m with
  | nil => simp [dpop] at hp
  | cons hd tl ih =>
    obtain ⟨k₀, v₀⟩ := hd
    by_cases h₀ : k₀ = k
    · rw [show dpop ((k₀, v₀) :: tl) k = dpop tl k by simp [dpop, h₀]] at hp
      exact List.mem_cons_of_mem _ (ih hp)
    · rw [show dpop ((k₀, v₀) :: tl) k = (k₀, v₀) :: dpop tl k by simp [dpop, h₀]] at hp
      rcases List.mem_cons.mp hp with rfl | hp'
      · exact List.mem_cons_self _ _
      · exact List.mem_cons_of_mem _ (ih hp')

/-- C3: reconciling the identical edited rows a second time succeeds and
leaves every component of the ledger state unchanged. -/
theorem C3_reconcile_idempotent (sub : List Row) (l : Ledger)
    (edits : List (Int × String)) (l' : Ledger)
    (h : reconcile sub l edits = (l', true)) :
    (reconcile sub l' edits).2 = true
    ∧ (∀ b, dlookup (reconcile sub l' edits).1.id_to_name b = dlookup l'.id_to_name b)
    ∧ (∀ m, dlookup (reconcile sub l' edits).1.name_to_neck m = dlookup l'.name_to_neck m)
    ∧ (∀ b, b ∈ (reconcile sub l' edits).1.uninterested ↔ b ∈ l'.uninterested) := by
  have hok : (reconcile sub l' edits).2 = true := by
    rw [← reconcile_ok_indep sub edits l l', h]
  have hpair : reconcile sub l' edits = ((reconcile sub l' edits).1, true) := by
    rw [← hok]
  refine ⟨hok, ?_, ?_, ?_⟩
  · intro b
    have h₁ := reconcile_lookup_id sub edits l' _ hpair b
    have h₂ := reconcile_lookup_id sub edits l l' h b
    cases hLE : lastEdit edits b with
    | none => rw [hLE] at h₁; exact h₁
    | some n =>
      rw [hLE] at h₁ h₂
      rw [h₁, h₂]
  · intro m
    have h₁ := reconcile_lookup_n2p sub edits l' _ hpair m
    have h₂ := reconcile_lookup_n2p sub edits l l' h m
    cases hLA : lastAssign edits m with
    | none => rw [hLA] at h₁; exact h₁
    | some b =>
      rw [hLA] at h₁ h₂
      rw [h₁, h₂]
  · intro b
    have h₁ := reconcile_mem_unint sub edits l' _ hpair b
    have h₂ := reconcile_mem_unint sub edits l l' h b
    cases hLE : lastEdit edits b with
    | none => rw [hLE] at h₁; exact h₁
    | some n =>
      rw [hLE] at h₁ h₂
      rw [h₁, ← h₂]

/-- Witness for C3 at a concrete frame and edit list. -/
theorem C3_witness :
    (reconcile C1sub C3ledger C3edits).2 = true
    ∧ dlookup (reconcile C1sub C3ledger C3edits).1.id_to_name 7 = dlookup C3ledger.id_to_name 7
    ∧ (9 ∈ (reconcile C1sub C3ledger C3edits).1.uninterested ↔ 9 ∈ C3ledger.uninterested) := by
  have h := C3_reconcile_idempotent C1sub emptyLedger C3edits C3ledger (by decide)
  exact ⟨h.1, h.2.1 7, h.2.2.2 9⟩

/-- `reconcile` preserves the disjointness of named and uninterested
BodyIDs: assigning discards from `uninterested`, clearing pops the name. -/
theorem reconcile_disj (sub : List Row) :
    ∀ (edits : List (Int × String)) (l l' : Ledger),
    (∀ b n, dlookup l.id_to_name b = some n → b ∉ l.uninterested) →
    reconcile sub l edits = (l', true) →
    ∀ b n, dlookup l'.id_to_name b = some n → b ∉ l'.uninterested := by
  intro edits
  induction edits with
  | nil =>
    intro l l' hinv h
    simp only [reconcile, Prod.mk.injEq] at h
    exact h.1 ▸ hinv
  | cons e rest ih =>
    obtain ⟨bid, name⟩ := e
    intro l l' hinv h
    simp only [reconcile] at h
    by_cases hn : name = ""
    · rw [if_pos hn] at h
      refine ih _ _ ?_ h
      intro b n hb
      dsimp only at hb ⊢
      rw [dlookup_dpop] at hb
      rw [mem_sadd]
      by_cases hb' : bid = b
      · rw [if_pos hb'] at hb
        simp at hb
      · rw [if_neg hb'] at hb
        rintro (hmem | rfl)
        · exact hinv b n hb hmem
        · exact hb' rfl
    · rw [if_neg hn] at h
      cases hsn : subNeck sub bid with
      | none => rw [hsn] at h; simp at h
      | some nk =>
        rw [hsn] at h
        refine ih _ _ ?_ h
        intro b n hb
        dsimp only at hb ⊢
        rw [dlookup_dinsert] at hb
        rw [mem_sdiscard]
        by_cases hb' : bid = b
        · rintro ⟨_, hne⟩
          exact hne hb'.symm
        · rw [if_neg hb'] at hb
          rintro ⟨hmem, _⟩
          exact hinv b n hb hmem

/-- Invariant propagation through a completed operation sequence. -/
theorem applyOps_inv (Inv : Ledger → Prop) (Q : Op → Prop)
    (hs : ∀ l rows, Q (Op.suggest rows) → Inv l → Inv (suggestForFrame l rows).1)
    (hr : ∀ l sub edits l', Q (Op.reconcile sub edits) → Inv l →
      reconcile sub l edits = (l', true) → Inv l') :
    ∀ (ops : List Op) (l₀ l : Ledger),
    (∀ op ∈ ops, Q op) → Inv l₀ → applyOps l₀ ops = (l, true) → Inv l := by
  intro ops
  induction ops with
  | nil =>
    intro l₀ l _ hinv h
    simp only [applyOps, Prod.mk.injEq] at h
    exact h.1 ▸ hinv
  | cons op rest ih =>
    intro l₀ l hQ hinv h
    simp only [applyOps] at h
    cases hop : applyOp l₀ op with
    | mk l₁ ok₁ =>
      rw [hop] at h
      cases ok₁ with
      | false => simp at h
      | true =>
        refine ih l₁ l (fun o ho => hQ o (List.mem_cons_of_mem _ ho)) ?_ h
        cases op with
        | suggest rows =>
          have hfst : (suggestForFrame l₀ rows).1 = l₁ := congrArg Prod.fst hop
          exact hfst ▸ hs l₀ rows (hQ _ (List.mem_cons_self _ _)) hinv
        | reconcile sub edits =>
          exact hr l₀ sub edits l₁ (hQ _ (List.mem_cons_self _ _)) hinv hop

/-- C4: from the empty session, after any completed sequence of frame
views and edit reconciliations, no BodyID is simultaneously named in
`id_to_name` and a member of `uninterested`; moreover a single non-empty
edit names the BodyID and discards it from `uninterested`, and a single
empty edit pops its name and adds it to `uninterested`. -/
theorem C4_disjoint_invariant :
    (∀ (ops : List Op) (l : Ledger), applyOps emptyLedger ops = (l, true) →
      ∀ b n, dlookup l.id_to_name b = some n → b ∉ l.uninterested)
    ∧ (∀ (l : Ledger) (sub : List Row) (b : Int) (n : String) (l' : Ledger),
        n ≠ "" → reconcile sub l [(b, n)] = (l', true) →
        dlookup l'.id_to_name b = some n ∧ b ∉ l'.uninterested)
    ∧ (∀ (l : Ledger) (sub : List Row) (b : Int) (l' : Ledger),
        reconcile sub l [(b, "")] = (l', true) →
        dlookup l'.id_to_name b = none ∧ b ∈ l'.uninterested) := by
  refine ⟨?_, ?_, ?_⟩
  · intro ops l h b n hb
    refine applyOps_inv
      (fun l => ∀ b n, dlookup l.id_to_name b = some n → b ∉ l.uninterested)
      (fun _ => True) ?_ ?_ ops emptyLedger l (fun _ _ => trivial) ?_ h b n hb
    · intro l rows _ hinv b' n' hb'
      exact pass2_disj l.uninterested _ l.id_to_name l.name_to_neck
        (pass1Used l rows) hinv b' n' hb'
    · intro l sub edits l' _ hinv hrec
      exact reconcile_disj sub edits l l' hinv hrec
    · intro b' n' hb'
      simp [emptyLedger, dlookup] at hb'
  · intro l sub b n l' hn hrec
    constructor
    · rw [reconcile_lookup_id sub [(b, n)] l l' hrec b]
      simp [lastEdit, hn]
    · rw [reconcile_mem_unint sub [(b, n)] l l' hrec b]
      simp [lastEdit, hn]
  · intro l sub b l' hrec
    constructor
    · rw [reconcile_lookup_id sub [(b, "")] l l' hrec b]
      simp [lastEdit]
    · rw [reconcile_mem_unint sub [(b, "")] l l' hrec b]
      simp [lastEdit]

/-- Witness for C4 on a concrete completed session. -/
theorem C4_witness :
    (7 : Int) ∉ C1ledger.uninterested ∧ (9 : Int) ∉ C1ledger.uninterested := by
  have h := C4_disjoint_invariant.1
    [Op.reconcile C1sub [(7, "Alice")], Op.suggest C1rows2] C1ledger (by decide)
  exact ⟨h 7 "Alice" (by decide), h 9 "Alice" (by decide)⟩

/-- `reconcile` keeps all ledger names inside the catalog as long as the
edited names are empty or catalog members. -/
theorem reconcile_cat (catalog : List String) (sub : List Row) :
    ∀ (edits : List (Int × String)) (l l' : Ledger) (ok : Bool),
    (∀ e ∈ edits, e.2 = "" ∨ e.2 ∈ catalog) →
    (∀ p ∈ l.id_to_name, p.2 ∈ catalog) →
    (∀ q ∈ l.name_to_neck, q.1 ∈ catalog) →
    reconcile sub l edits = (l', ok) →
    (∀ p ∈ l'.id_to_name, p.2 ∈ catalog) ∧ (∀ q ∈ l'.name_to_neck, q.1 ∈ catalog) := by
  intro edits
  induction edits with
  | nil =>
    intro l l' ok _ h₁ h₂ h
    simp only [reconcile, Prod.mk.injEq] at h
    exact h.1 ▸ ⟨h₁, h₂⟩
  | cons e rest ih =>
    obtain ⟨bid, name⟩ := e
    intro l l' ok hE h₁ h₂ h
    simp only [reconcile] at h
    have hErest : ∀ e ∈ rest, e.2 = "" ∨ e.2 ∈ catalog :=
      fun e he => hE e (List.mem_cons_of_mem _ he)
    by_cases hn : name = ""
    · rw [if_pos hn] at h
      refine ih _ _ _ hErest ?_ ?_ h
      · intro p hp
        exact h₁ p (mem_dpop _ _ p hp)
      · exact h₂
    · have hname : name ∈ catalog := by
        rcases hE (bid, name) (List.mem_cons_self _ _) with h' | h'
        · exact absurd h' hn
        · exact h'
      rw [if_neg hn] at h
      cases hsn : subNeck sub bid with
      | none =>
        rw [hsn] at h
        simp only [Prod.mk.injEq] at h
        rw [← h.1]
        constructor
        · intro p hp
          rcases mem_dinsert _ _ _ p hp with rfl | hp'
          · exact hname
          · exact h₁ p hp'
        · exact h₂
      | some nk =>
        rw [hsn] at h
        refine ih _ _ _ hErest ?_ ?_ h
        · intro p hp
          rcases mem_dinsert _ _ _ p hp with rfl | hp'
          · exact hname
          · exact h₁ p hp'
        · intro q hq
          rcases mem_dinsert _ _ _ q hq with rfl | hq'
          · exact hname
          · exact h₂ q hq'

/-- C9: starting from the empty session, if every reconciled edit carries
a name that is empty or in the catalog (what the editor's selectbox
enforces), then every name the ledger ever stores is a catalog member. -/
theorem C9_catalog_closed (catalog : List String) (ops : List Op) (l : Ledger)
    (hQ : ∀ op ∈ ops, opEditsOk catalog op)
    (h : applyOps emptyLedger ops = (l, true)) :
    ∀ b n, dlookup l.id_to_name b = some n → n ∈ catalog := by
  have main := applyOps_inv
    (fun l => (∀ p ∈ l.id_to_name, p.2 ∈ catalog) ∧ (∀ q ∈ l.name_to_neck, q.1 ∈ catalog))
    (opEditsOk catalog)
    (fun l rows _ hinv => pass2_cat catalog l.uninterested _ l.id_to_name l.name_to_neck
      (pass1Used l rows) hinv.1 hinv.2)
    (fun l sub edits l' hq hinv hrec =>
      reconcile_cat catalog sub edits l l' true hq hinv.1 hinv.2 hrec)
    ops emptyLedger l hQ (by constructor <;> intro p hp <;> simp [emptyLedger] at hp) h
  intro b n hb
  exact main.1 _ (dlookup_mem _ _ _ hb)

/-- Witness for C9 on a concrete session with catalog [Alice, Bob]. -/
theorem C9_witness :
    dlookup C1ledger.id_to_name 7 = some "Alice" ∧ "Alice" ∈ ["Alice", "Bob"] :=
  ⟨by decide, C9_catalog_closed ["Alice", "Bob"]
    [Op.reconcile C1sub [(7, "Alice")], Op.suggest C1rows2] C1ledger
    (by
      intro op hop
      rcases List.mem_cons.mp hop with rfl | hop'
      · intro e he
        rcases List.mem_cons.mp he with rfl | he'
        · exact Or.inr (by simp)
        · simp at he'
      · rcases List.mem_cons.mp hop' with rfl | hop''
        · trivial
        · simp at hop'')
    (by decide) 7 "Alice" (by decide)⟩

/-! Lemmas about the export. -/

theorem mem_insertFrame (x : Int) :
    ∀ (l : List Int) (a : Int), a ∈ insertFrame x l ↔ a = x ∨ a ∈ l := by
  intro l
  induction l with
  | nil => intro a; simp [insertFrame]
  | cons y rest ih =>
    intro a
    by_cases h₁ : x < y
    · simp [insertFrame, if_pos h₁, List.mem_cons]
    · by_cases h₂ : x = y
      · subst h₂
        simp [insertFrame, if_neg h₁, List.mem_cons]
      · rw [show insertFrame x (y :: rest) = y :: insertFrame x rest by
          simp [insertFrame, h₁, h₂]]
        simp only [List.mem_cons, ih]
        tauto

theorem pairwise_insertFrame (x : Int) :
    ∀ (l : List Int), l.Pairwise (· < ·) → (insertFrame x l).Pairwise (· < ·) := by
  intro l
  induction l with
  | nil => intro _; simp [insertFrame]
  | cons y rest ih =>
    intro hp
    rw [List.pairwise_cons] at hp
    obtain ⟨hy, hrest⟩ := hp
    by_cases h₁ : x < y
    · rw [show insertFrame x (y :: rest) = x :: y :: rest by simp [insertFrame, h₁]]
      rw [List.pairwise_cons]
      refine ⟨?_, List.pairwise_cons.mpr ⟨hy, hrest⟩⟩
      intro a ha
      rcases List.mem_cons.mp ha with rfl | ha'
      · exact h₁
      · exact h₁.trans (hy a ha')
    · by_cases h₂ : x = y
      · rw [show insertFrame x (y :: rest) = y :: rest by simp [insertFrame, h₁, h₂]]
        exact List.pairwise_cons.mpr ⟨hy, hrest⟩
      · rw [show insertFrame x (y :: rest) = y :: insertFrame x rest by
          simp [insertFrame, h₁, h₂]]
        rw [List.pairwise_cons]
        refine ⟨?_, ih hrest⟩
        intro a ha
        rcases (mem_insertFrame x rest a).mp ha with rfl | ha'
        · omega
        · exact hy a ha'

theorem mem_sortedFrames (df : List Row) (x : Int) :
    x ∈ sortedFrames df ↔ ∃ r ∈ df, r.frame = x := by
  induction df with
  | nil => simp [sortedFrames]
  | cons r rest ih =>
    rw [show sortedFrames (r :: rest) = insertFrame r.frame (sortedFrames rest) from rfl]
    rw [mem_insertFrame]
    simp only [List.mem_cons, ih]
    constructor
    · rintro (rfl | ⟨r', hr', rfl⟩)
      · exact ⟨r, Or.inl rfl, rfl⟩
      · exact ⟨r', Or.inr hr', rfl⟩
    · rintro ⟨r', rfl | hr', rfl⟩
      · exact Or.inl rfl
      · exact Or.inr ⟨r', hr', rfl⟩

theorem pairwise_sortedFrames (df : List Row) :
    (sortedFrames df).Pairwise (· < ·) := by
  induction df with
  | nil => simp [sortedFrames]
  | cons r rest ih =>
    exact pairwise_insertFrame r.frame (sortedFrames rest) ih

/-- Destructing an emitted export row. -/
theorem emit_some (l : Ledger) (r : Row) (p : Row × String)
    (h : emit l r = some p) :
    p.1 = r ∧ dlookup l.id_to_name r.bid = some p.2 ∧ p.2 ≠ "" := by
  unfold emit at h
  by_cases hd : (dlookup l.id_to_name r.bid).getD "" = ""
  · rw [if_pos hd] at h; simp at h
  · rw [if_neg hd] at h
    obtain rfl := Option.some.injEq _ _ |>.mp h |>.symm
    exact ⟨rfl, getD_ne_empty _ hd, hd⟩

/-- Every exported pair comes from a table row of a listed frame with a
non-empty name. -/
theorem mem_exportFrames (df : List Row) (l : Ledger) :
    ∀ (fs : List Int) (p : Row × String), p ∈ exportFrames df l fs →
    p.1.frame ∈ fs ∧ p.1 ∈ df ∧ dlookup l.id_to_name p.1.bid = some p.2 ∧ p.2 ≠ "" := by
  intro fs
  induction fs with
  | nil => intro p hp; simp [exportFrames] at hp
  | cons f rest ih =>
    intro p hp
    simp only [exportFrames, List.mem_append] at hp
    rcases hp with hp | hp
    · rw [List.mem_filterMap] at hp
      obtain ⟨r, hr, hemit⟩ := hp
      rw [List.mem_filter] at hr
      obtain ⟨hrdf, hrf⟩ := hr
      obtain ⟨hp1, hlook, hne⟩ := emit_some l r p hemit
      subst hp1
      exact ⟨List.mem_cons.mpr (Or.inl (by simpa using hrf)), hrdf, hlook, hne⟩
    · obtain ⟨h₁, h₂⟩ := ih p hp
      exact ⟨List.mem_cons_of_mem _ h₁, h₂⟩

/-- Conversely, a named record of a listed frame is exported. -/
theorem mem_exportFrames_intro (df : List Row) (l : Ledger) :
    ∀ (fs : List Int) (r : Row) (p : Row × String), r.frame ∈ fs → r ∈ df →
    emit l r = some p → p ∈ exportFrames df l fs := by
  intro fs
  induction fs with
  | nil => intro r p hf; simp at hf
  | cons f rest ih =>
    intro r p hf hr hemit
    simp only [exportFrames, List.mem_append]
    rcases List.mem_cons.mp hf with hf' | hf'
    · refine Or.inl (List.mem_filterMap.mpr ⟨r, ?_, hemit⟩)
      rw [List.mem_filter]
      exact ⟨hr, by simpa using hf'⟩
    · exact Or.inr (ih r p hf' hr hemit)

/-- Mapping `Prod.fst` over one frame block's emissions keeps exactly the
named records of the block, in order. -/
theorem block_map_fst (l : Ledger) :
    ∀ (xs : List Row),
    (xs.filterMap (emit l)).map Prod.fst
      = xs.filterMap (fun r =>
          if (dlookup l.id_to_name r.bid).getD "" = "" then none else some r) := by
  intro xs
  induction xs with
  | nil => rfl
  | cons r rest ih =>
    simp only [List.filterMap_cons]
    by_cases hd : (dlookup l.id_to_name r.bid).getD "" = ""
    · rw [show emit l r = none by simp [emit, hd], if_pos hd]
      exact ih
    · rw [show emit l r = some (r, (dlookup l.id_to_name r.bid).getD "") by
        simp [emit, hd], if_neg hd]
      simp only [List.map_cons, ih]

/-- A list of identical values is weakly increasing. -/
theorem pairwise_le_of_all_eq (f : Int) :
    ∀ (xs : List Int), (∀ a ∈ xs, a = f) → xs.Pairwise (· ≤ ·) := by
  intro xs
  induction xs with
  | nil => intro _; simp
  | cons a as ih =>
    intro hall
    rw [List.pairwise_cons]
    refine ⟨?_, ih fun a' ha' => hall a' (List.mem_cons_of_mem _ ha')⟩
    intro a' ha'
    rw [hall a (List.mem_cons_self _ _), hall a' (List.mem_cons_of_mem _ ha')]

/-- The frames of the emitted rows follow the (strictly sorted) frame
list, so they are ascending. -/
theorem exportFrames_pairwise (df : List Row) (l : Ledger) :
    ∀ (fs : List Int), fs.Pairwise (· < ·) →
    ((exportFrames df l fs).map (fun p => p.1.frame)).Pairwise (· ≤ ·) := by
  intro fs
  induction fs with
  | nil => intro _; simp [exportFrames]
  | cons f rest ih =>
    intro hp
    rw [List.pairwise_cons] at hp
    obtain ⟨hf, hrest⟩ := hp
    simp only [exportFrames, List.map_append]
    rw [List.pairwise_append]
    refine ⟨?_, ih hrest, ?_⟩
    · -- all block frames equal f
      refine pairwise_le_of_all_eq f _ ?_
      intro a ha
      rw [List.mem_map] at ha
      obtain ⟨p, hp, rfl⟩ := ha
      obtain ⟨r, hr, he⟩ := List.mem_filterMap.mp hp
      rw [(emit_some l r p he).1]
      simpa using (List.mem_filter.mp hr).2
    · intro a ha b hb
      rw [List.mem_map] at ha hb
      obtain ⟨pa, hpa, rfl⟩ := ha
      obtain ⟨pb, hpb, rfl⟩ := hb
      obtain ⟨ra, hra, hea⟩ := List.mem_filterMap.mp hpa
      have hfa : pa.1.frame = f := by
        rw [(emit_some l ra pa hea).1]
        simpa using (List.mem_filter.mp hra).2
      have hfb : pb.1.frame ∈ rest := (mem_exportFrames df l rest pb hpb).1
      rw [hfa]
      exact le_of_lt (hf _ hfb)

/-- Restricting the export to one frame index yields exactly that frame's
named records, in original table order. -/
theorem exportFrames_filter (df : List Row) (l : Ledger) (f : Int) :
    ∀ (fs : List Int), fs.Pairwise (· < ·) →
    ((exportFrames df l fs).filter (fun p => decide (p.1.frame = f))).map Prod.fst
      = if f ∈ fs then
          (df.filter (fun r => decide (r.frame = f))).filterMap
            (fun r => if (dlookup l.id_to_name r.bid).getD "" = "" then none else some r)
        else [] := by
  intro fs
  induction fs with
  | nil => intro _; simp [exportFrames]
  | cons f₀ rest ih =>
    intro hp
    rw [List.pairwise_cons] at hp
    obtain ⟨hf₀, hrest⟩ := hp
    simp only [exportFrames, List.filter_append, List.map_append]
    by_cases hff : f₀ = f
    · subst hff
      have hblock : ((df.filter (fun r => decide (r.frame = f₀))).filterMap (emit l)).filter
          (fun p => decide (p.1.frame = f₀))
          = (df.filter (fun r => decide (r.frame = f₀))).filterMap (emit l) := by
        apply List.filter_eq_self.mpr
        intro p hp'
        obtain ⟨r, hr, he⟩ := List.mem_filterMap.mp hp'
        rw [(emit_some l r p he).1]
        exact (List.mem_filter.mp hr).2
      have hrestnil :
          (exportFrames df l rest).filter (fun p => decide (p.1.frame = f₀)) = [] := by
        apply List.filter_eq_nil_iff.mpr
        intro p hp'
        have hmem := (mem_exportFrames df l rest p hp').1
        have hne : ¬ p.1.frame = f₀ := by
          intro he
          rw [he] at hmem
          exact lt_irrefl f₀ (hf₀ _ hmem)
        simpa using hne
      rw [hblock, hrestnil]
      simp only [List.map_nil, List.append_nil]
      rw [if_pos (List.mem_cons_self _ _)]
      exact block_map_fst l _
    · have hblocknil : ((df.filter (fun r => decide (r.frame = f₀))).filterMap (emit l)).filter
          (fun p => decide (p.1.frame = f)) = [] := by
        apply List.filter_eq_nil_iff.mpr
        intro p hp'
        obtain ⟨r, hr, he⟩ := List.mem_filterMap.mp hp'
        have hpf : p.1.frame = f₀ := by
          rw [(emit_some l r p he).1]
          simpa using (List.mem_filter.mp hr).2
        simp [hpf, hff]
      rw [hblocknil]
      simp only [List.map_nil, List.nil_append]
      rw [ih hrest]
      by_cases hmem : f ∈ rest
      · rw [if_pos hmem, if_pos (List.mem_cons_of_mem _ hmem)]
      · rw [if_neg hmem, if_neg ?_]
        intro hc
        rcases List.mem_cons.mp hc with h | h
        · exact hff h.symm
        · exact hmem h

/-- C5: the export visits frames in ascending order and, within each
frame, records in original order; it emits exactly the records whose
BodyID carries a non-empty name in `id_to_name`, each such record
augmented with that PersonName (the record's original columns followed by
PersonName, the pair's second component); every unnamed record is
dropped. -/
theorem C5_export_content (df : List Row) (l : Ledger) :
    (∀ p ∈ exportRows df l, p.1 ∈ df ∧ dlookup l.id_to_name p.1.bid = some p.2 ∧ p.2 ≠ "")
    ∧ (∀ r ∈ df, ∀ n, dlookup l.id_to_name r.bid = some n → n ≠ "" → (r, n) ∈ exportRows df l)
    ∧ (∀ r ∈ df, (dlookup l.id_to_name r.bid).getD "" = "" → ∀ n, (r, n) ∉ exportRows df l)
    ∧ ((exportRows df l).map (fun p => p.1.frame)).Pairwise (· ≤ ·)
    ∧ (∀ f : Int, ((exportRows df l).filter (fun p => decide (p.1.frame = f))).map Prod.fst
        = (df.filter (fun r => decide (r.frame = f))).filterMap
            (fun r => if (dlookup l.id_to_name r.bid).getD "" = "" then none else some r)) := by
  refine ⟨?_, ?_, ?_, ?_, ?_⟩
  · intro p hp
    have h := mem_exportFrames df l _ p hp
    exact ⟨h.2.1, h.2.2.1, h.2.2.2⟩
  · intro r hr n hn hne
    refine mem_exportFrames_intro df l _ r (r, n) ?_ hr ?_
    · exact (mem_sortedFrames df r.frame).mpr ⟨r, hr, rfl⟩
    · have hg : (dlookup l.id_to_name r.bid).getD "" = n := by rw [hn]; rfl
      simp [emit, hg, hne]
  · intro r hr hget n hmem
    have h := (mem_exportFrames df l _ _ hmem).2.2
    have h1 : dlookup l.id_to_name r.bid = some n := h.1
    rw [h1] at hget
    simp at hget
    exact h.2 hget
  · exact exportFrames_pairwise df l _ (pairwise_sortedFrames df)
  · intro f
    simp only [exportRows]
    by_cases hmem : f ∈ sortedFrames df
    · rw [exportFrames_filter df l f _ (pairwise_sortedFrames df), if_pos hmem]
    · rw [exportFrames_filter df l f _ (pairwise_sortedFrames df), if_neg hmem]
      have hnil : df.filter (fun r => decide (r.frame = f)) = [] := by
        apply List.filter_eq_nil_iff.mpr
        intro r hr
        simp only [decide_eq_true_eq]
        intro hrf
        exact hmem ((mem_sortedFrames df f).mpr ⟨r, hr, hrf⟩)
      rw [hnil]
      rfl

/-- Witness for C5 on a concrete table and ledger. -/
theorem C5_witness :
    (⟨1, 7, (some 0, some 0, some 0)⟩, "Alice")
      ∈ exportRows (C1sub ++ C1rows2) ⟨[(7, "Alice")], [], []⟩ :=
  (C5_export_content (C1sub ++ C1rows2) ⟨[(7, "Alice")], [], []⟩).2.1
    ⟨1, 7, (some 0, some 0, some 0)⟩ (by decide) "Alice" (by decide) (by decide)

/-- C7: the export fails (the `rows_out` table is empty, raising the
spec's `EmptyExportError`) exactly when no record of the dataset has a
name; the ledger is not involved in any write, so the session survives. -/
theorem C7_empty_export (df : List Row) (l : Ledger) :
    exportAll df l = Except.error () ↔
      ∀ r ∈ df, (dlookup l.id_to_name r.bid).getD "" = "" := by
  unfold exportAll
  constructor
  · intro h r hr
    by_cases hrows : exportRows df l = []
    · by_contra hne
      have hmem : (r, (dlookup l.id_to_name r.bid).getD "") ∈ exportRows df l :=
        mem_exportFrames_intro df l _ r _
          ((mem_sortedFrames df r.frame).mpr ⟨r, hr, rfl⟩) hr (by simp [emit, hne])
      rw [hrows] at hmem
      simp at hmem
    · rw [if_neg hrows] at h
      simp at h
  · intro hall
    have hrows : exportRows df l = [] := by
      cases hE : exportRows df l with
      | nil => rfl
      | cons p ps =>
        have hp : p ∈ exportRows df l := by rw [hE]; exact List.mem_cons_self _ _
        have h := mem_exportFrames df l _ p hp
        have hget := hall p.1 h.2.1
        rw [h.2.2.1] at hget
        simp at hget
        exact absurd hget h.2.2.2
    rw [if_pos hrows]

/-- Witness for C7: a dataset with no named record fails to export. -/
theorem C7_witness : exportAll C1sub emptyLedger = Except.error () :=
  (C7_empty_export C1sub emptyLedger).mpr (by decide)

/-- C6 on the code: with a candidate name available, the missing neck
coordinate makes `math.dist` raise an uncaught `TypeError`; the whole
frame view aborts (`ok = false`) and nothing at all is presented, rather
than a per-record `MissingKeyError` degrading to manual labeling. -/
theorem C6_missing_key_aborts :
    (suggestForFrame C6ledger C6rows).2.2 = false
    ∧ (suggestForFrame C6ledger C6rows).2.1 = [] := by
  decide

/-- C8, nearest-integer property: round half to even never strays more
than one half from the input. -/
theorem roundHalfEven_nearest (q : ℚ) : |q - (roundHalfEven q : ℚ)| ≤ 1 / 2 := by
  unfold roundHalfEven
  have h₀ : (0 : ℚ) ≤ q - ⌊q⌋ := by
    have := Int.floor_le q
    linarith
  have h₁ : q - ⌊q⌋ < 1 := by
    have := Int.lt_floor_add_one q
    linarith
  by_cases hc : q - ⌊q⌋ < 1 / 2
  · rw [if_pos hc, abs_le]
    constructor <;> linarith
  · rw [if_neg hc]
    by_cases hc2 : 1 / 2 < q - ⌊q⌋
    · rw [if_pos hc2, abs_le]
      push_cast
      constructor <;> linarith
    · rw [if_neg hc2]
      have heq : q - ⌊q⌋ = 1 / 2 := le_antisymm (not_lt.mp hc2) (not_lt.mp hc)
      by_cases hpar : ⌊q⌋ % 2 = 0
      · rw [if_pos hpar, abs_le]
        constructor <;> linarith
      · rw [if_neg hpar, abs_le]
        push_cast
        constructor <;> linarith

/-- C8: on load, `remove_decimals` rounds every coordinate-like column
(name ending in an axis suffix) cell-wise to the nearest integer with the
round-half-to-even rule applied by `Series.round()` (12.6 becomes 13 and
-0.5 becomes 0, with 0.5 ↦ 0 and 1.5 ↦ 2 fixing the half rule), never
truncating, while the missing-value marker is preserved and remains
distinct from zero. -/
theorem C8_rounding_normalization (t : Table) :
    (∀ c ∈ t, isCoordCol c.1 = true →
      (c.1, c.2.map (Option.map (fun q => (roundHalfEven q : ℚ)))) ∈ remove_decimals t)
    ∧ (∀ q : ℚ, |q - (roundHalfEven q : ℚ)| ≤ 1 / 2)
    ∧ roundHalfEven (63 / 5) = 13
    ∧ roundHalfEven (-(1 / 2)) = 0
    ∧ roundHalfEven (1 / 2) = 0
    ∧ roundHalfEven (3 / 2) = 2
    ∧ Option.map (fun q => (roundHalfEven q : ℚ)) (none : Option ℚ) = none
    ∧ (none : Option ℚ) ≠ some 0 := by
  refine ⟨?_, roundHalfEven_nearest, by norm_num [roundHalfEven], by norm_num [roundHalfEven],
    by norm_num [roundHalfEven], by norm_num [roundHalfEven], rfl, by simp⟩
  intro c hc hcoord
  unfold remove_decimals
  refine List.mem_map.mpr ⟨c, hc, ?_⟩
  rw [if_pos hcoord]

/-- Witness for C8 on a one-column table holding 12.6 and a missing cell. -/
theorem C8_witness :
    ("NECK_X", [some (13 : ℚ), none])
      ∈ remove_decimals [("NECK_X", [some (63 / 5 : ℚ), none])] := by
  have h := (C8_rounding_normalization [("NECK_X", [some (63 / 5 : ℚ), none])]).1
    ("NECK_X", [some (63 / 5 : ℚ), none]) (List.mem_cons_self _ _) (by decide)
  have h13 : roundHalfEven (63 / 5) = 13 := by norm_num [roundHalfEven]
  have he : ([some (63 / 5 : ℚ), none].map (Option.map (fun q => (roundHalfEven q : ℚ))))
      = [some (13 : ℚ), none] := by simp [h13]
  rw [he] at h
  exact h
